import Mathlib

/-!
Verification of the current-refined-values connector
(src/connectors/current-refined-values/connectCurrentRefinedValues.js).

The pure core of the module is embedded shallowly: a normalized refinement
record type, the sorting comparator (compareRefinements together with
getRestrictedIndexForSort), the extraction pipeline (getFilteredRefinements),
the labeler (computeLabel) and the per-kind clearing dispatch
(clearRefinementFromState).  The external collaborators of section 6 of the
design document (getRefinements from lib/utils.js and the per-kind state
mutators of the search helper) are modelled from the spec, as indicated on
each definition.
-/

/-- Normalized refinement record produced by the extractor.  Fields follow
the data model of the record: a kind tag (a plain string, as in the source,
since the clearing dispatch must also observe unrecognized kinds), the
attribute name, the refined value or tag under `name`, the optional numeric
fields, and the derived label (absent before labeling). -/
structure Refinement where
  type : String
  attributeName : String
  name : String
  operator : Option String := none
  numericValue : Option Int := none
  computedLabel : Option String := none
deriving DecidableEq

/-- First index of `x` in `l` (0 on the empty list); total helper used to
state the value of a successful JavaScript `indexOf`. -/
def idxOf : List String → String → Nat
  | [], _ => 0
  | y :: l, x => if y = x then 0 else idxOf l x + 1

/-- JavaScript `Array.prototype.indexOf` over a list of strings: the index
of the first occurrence, or -1 when the value does not occur. -/
def jsIndexOf (l : List String) (x : String) : Int :=
  if x ∈ l then (idxOf l x : Int) else -1

/-- Embeds the call `res.indexOf(refinement.attributeName === -1)` on line
248 of the source: the argument `refinement.attributeName === -1` compares a
string with the number -1 under strict equality, hence evaluates to the
boolean `false`; searching a boolean in a list of strings yields -1. -/
def indexOfBoolInStrings (res : List String) (b : Bool) : Int := -1

/-- Embeds the accumulation on lines 247-252 of the source building
`otherAttributeNames`: a refinement pushes its `attributeName` whenever the
name is not declared and the second conjunct is truthy (a number is truthy
when nonzero; `indexOfBoolInStrings` is always the truthy -1, so the
intended deduplication test never fires). -/
def otherAttributeNamesOf (attributeNames : List String) (refinements : List Refinement) : List String :=
  refinements.foldl
    (fun res r =>
      if jsIndexOf attributeNames r.attributeName = -1 ∧
          indexOfBoolInStrings res (decide False) ≠ 0 then
        res ++ [r.attributeName]
      else res)
    []

/-- Lines 225-231 of the source: position of an attribute name in the
declared list when present, otherwise the length of the declared list plus
its position in the tail of other attribute names (JavaScript indexOf
semantics, hence -1 for a name absent from both lists). -/
def getRestrictedIndexForSort (attributeNames otherAttributeNames : List String) (attributeName : String) : Int :=
  let idx := jsIndexOf attributeNames attributeName
  if idx ≠ -1 then idx
  else (attributeNames.length : Int) + jsIndexOf otherAttributeNames attributeName

/-- Lines 233-243 of the source: the sorting comparator, comparing the
restricted indices of the two attribute names and breaking ties
lexicographically on `name`. -/
def compareRefinements (attributeNames otherAttributeNames : List String) (a b : Refinement) : Int :=
  let idxa := getRestrictedIndexForSort attributeNames otherAttributeNames a.attributeName
  let idxb := getRestrictedIndexForSort attributeNames otherAttributeNames b.attributeName
  if idxa = idxb then
    if a.name = b.name then 0
    else if a.name < b.name then -1 else 1
  else if idxa < idxb then -1 else 1

/-- Insertion into a list ordered by a boolean comparator-derived relation;
used to embed `Array.prototype.sort` (a comparator-driven sort). -/
def orderedInsert (le : Refinement → Refinement → Bool) (a : Refinement) : List Refinement → List Refinement
  | [] => [a]
  | b :: l => if le a b then a :: b :: l else b :: orderedInsert le a l

/-- Comparator-driven sort embedding `refinements.sort(...)` on line 253 of
the source. -/
def insertionSort (le : Refinement → Refinement → Bool) : List Refinement → List Refinement
  | [] => []
  | a :: l => orderedInsert le a (insertionSort le l)

/-- Lines 283-295 of the source: the labeler.  The record model types
`operator` as an optional string, so the guard
`value.hasOwnProperty("operator") && typeof value.operator === "string"`
becomes a match on the optional field; the two sequential reassignments of
`displayedOperator` are kept as shadowing bindings. -/
def computeLabel (value : Refinement) : Refinement :=
  let labeled := { value with computedLabel := some value.name }
  match value.operator with
  | some op =>
    let displayedOperator := op
    let displayedOperator := if op = ">=" then "≥" else displayedOperator
    let displayedOperator := if op = "<=" then "≤" else displayedOperator
    { labeled with computedLabel := some (displayedOperator ++ " " ++ value.name) }
  | none => labeled

/-- Lines 245-258 of the source, factored over the raw refinement list
returned by `getRefinements(results, state)`: build the tail of other
attribute names, sort with the comparator, filter to the declared names when
`onlyListedAttributes` is set and the declared list is non-empty
(`!isEmpty(attributeNames)`), and label every surviving record. -/
def getFilteredRefinementsFrom (refinements : List Refinement) (attributeNames : List String) (onlyListedAttributes : Bool) : List Refinement :=
  let otherAttributeNames := otherAttributeNamesOf attributeNames refinements
  let sorted := insertionSort
    (fun a b => decide (compareRefinements attributeNames otherAttributeNames a b ≤ 0)) refinements
  let filtered :=
    if onlyListedAttributes = true ∧ attributeNames ≠ [] then
      sorted.filter (fun r => decide (jsIndexOf attributeNames r.attributeName ≠ -1))
    else sorted
  filtered.map computeLabel

/-- Modelled from the spec: the query state owned by the external search
helper (section 3 of the design document), holding the per-kind collections
of active refinements: conjunctive facet values, disjunctive facet values,
hierarchical values, excluded values, numeric triples (attribute, operator,
value) and global tags. -/
structure SearchState where
  facets : List (String × String) := []
  disjunctive : List (String × String) := []
  hierarchical : List (String × String) := []
  excludes : List (String × String) := []
  numerics : List (String × String × Int) := []
  tags : List String := []
deriving DecidableEq

/-- Modelled from the spec: `removeFacetRefinement(attr, value)` of section
6 — remove the exact facet value for the attribute, returning a new state. -/
def SearchState.removeFacetRefinement (state : SearchState) (attributeName name : String) : SearchState :=
  { state with facets :=
      state.facets.filter (fun p => decide (¬(p.1 = attributeName ∧ p.2 = name))) }

/-- Modelled from the spec: `removeDisjunctiveFacetRefinement(attr, value)`
of section 6 — remove the value from the disjunctive facet. -/
def SearchState.removeDisjunctiveFacetRefinement (state : SearchState) (attributeName name : String) : SearchState :=
  { state with disjunctive :=
      state.disjunctive.filter (fun p => decide (¬(p.1 = attributeName ∧ p.2 = name))) }

/-- Modelled from the spec: `clearRefinements(attr)` of section 6 — clear
all refinements of every attribute-keyed kind for the given attribute (tags
carry no attribute and are untouched). -/
def SearchState.clearRefinements (state : SearchState) (attributeName : String) : SearchState :=
  { state with
      facets := state.facets.filter (fun p => decide (¬p.1 = attributeName)),
      disjunctive := state.disjunctive.filter (fun p => decide (¬p.1 = attributeName)),
      hierarchical := state.hierarchical.filter (fun p => decide (¬p.1 = attributeName)),
      excludes := state.excludes.filter (fun p => decide (¬p.1 = attributeName)),
      numerics := state.numerics.filter (fun t => decide (¬t.1 = attributeName)) }

/-- Modelled from the spec: `removeExcludeRefinement(attr, value)` of
section 6 — remove the excluded value for the attribute. -/
def SearchState.removeExcludeRefinement (state : SearchState) (attributeName name : String) : SearchState :=
  { state with excludes :=
      state.excludes.filter (fun p => decide (¬(p.1 = attributeName ∧ p.2 = name))) }

/-- Modelled from the spec: `removeNumericRefinement(attr, operator, value)`
of section 6 — remove the specific (operator, value) pair for the attribute.
The operator and value arrive as the optional fields of the record (absent
fields match no stored pair, as an undefined argument does). -/
def SearchState.removeNumericRefinement (state : SearchState) (attributeName : String) (operator : Option String) (numericValue : Option Int) : SearchState :=
  { state with numerics :=
      state.numerics.filter (fun t =>
        decide (¬(t.1 = attributeName ∧ some t.2.1 = operator ∧ some t.2.2 = numericValue))) }

/-- Modelled from the spec: `removeTagRefinement(value)` of section 6 —
remove the tag by name. -/
def SearchState.removeTagRefinement (state : SearchState) (name : String) : SearchState :=
  { state with tags := state.tags.filter (fun t => decide (¬t = name)) }

/-- The sentinel attribute name carried by tag records (tags are global and
not tied to an attribute). -/
def tagAttributeName : String := "_tags"

/-- Modelled from the spec: `getRefinements(results, state)` of section 6
(lib/utils.js, which is not under src/) — one record per currently active
refinement across all supported kinds, each with at least type, attribute
name and name, plus operator and numeric value for numeric refinements.
The optional result-derived `count` is not modelled; the name of a numeric
record renders its value. -/
def getRefinements (state : SearchState) : List Refinement :=
  state.facets.map (fun p => { type := "facet", attributeName := p.1, name := p.2 })
  ++ state.disjunctive.map (fun p => { type := "disjunctive", attributeName := p.1, name := p.2 })
  ++ state.hierarchical.map (fun p => { type := "hierarchical", attributeName := p.1, name := p.2 })
  ++ state.excludes.map (fun p => { type := "exclude", attributeName := p.1, name := p.2 })
  ++ state.numerics.map (fun t =>
      { type := "numeric", attributeName := t.1, name := toString t.2.2,
        operator := some t.2.1, numericValue := some t.2.2 })
  ++ state.tags.map (fun t => { type := "tag", attributeName := tagAttributeName, name := t })

/-- Lines 245-258 of the source applied to the modelled `getRefinements`. -/
def getFilteredRefinements (state : SearchState) (attributeNames : List String) (onlyListedAttributes : Bool) : List Refinement :=
  getFilteredRefinementsFrom (getRefinements state) attributeNames onlyListedAttributes

/-- Lines 260-277 of the source: the per-kind clearing dispatch.  The
`throw` of the default branch is embedded as the error case of `Except`. -/
def clearRefinementFromState (state : SearchState) (refinement : Refinement) : Except String SearchState :=
  match refinement.type with
  | "facet" =>
    Except.ok (state.removeFacetRefinement refinement.attributeName refinement.name)
  | "disjunctive" =>
    Except.ok (state.removeDisjunctiveFacetRefinement refinement.attributeName refinement.name)
  | "hierarchical" =>
    Except.ok (state.clearRefinements refinement.attributeName)
  | "exclude" =>
    Except.ok (state.removeExcludeRefinement refinement.attributeName refinement.name)
  | "numeric" =>
    Except.ok (state.removeNumericRefinement refinement.attributeName refinement.operator refinement.numericValue)
  | "tag" =>
    Except.ok (state.removeTagRefinement refinement.name)
  | t => Except.error ("clearRefinement: type " ++ t ++ " is not handled")

/-- First-seen deduplication of a list of strings: keeps the first
occurrence of every name, in first-occurrence order.  Spec-side notion used
by the ordering key of section 3 and by the deduplication requirement of
section 9. -/
def dedupFirstSeen : List String → List String
  | [] => []
  | a :: xs => a :: dedupFirstSeen (xs.filter (fun y => decide (y ≠ a)))
termination_by l => l.length
decreasing_by
  simp only [List.length_cons]
  exact Nat.lt_succ_of_le (List.length_filter_le _ _)

/-- The priority tail stated by the spec: the unlisted attribute names of
the raw refinements, each exactly once, in first-seen order. -/
def firstSeenUnlisted (attributeNames : List String) (refinements : List Refinement) : List String :=
  dedupFirstSeen
    ((refinements.filter (fun r => decide (r.attributeName ∉ attributeNames))).map
      (fun r => r.attributeName))

/-- The ordering-key priority of section 3 of the design document: position
in the declared attribute list, with unlisted names pushed after all listed
ones at their position in the first-seen tail. -/
def specPriority (attributeNames otherNames : List String) (x : String) : Nat :=
  if x ∈ attributeNames then idxOf attributeNames x
  else attributeNames.length + idxOf otherNames x

/-- The ordering key of section 3 as a relation on records: smaller
attribute priority first, ties within the same priority broken
lexicographically by name. -/
def specOrderedKeyLE (attributeNames otherNames : List String) (a b : Refinement) : Prop :=
  specPriority attributeNames otherNames a.attributeName
      < specPriority attributeNames otherNames b.attributeName
    ∨ (specPriority attributeNames otherNames a.attributeName
          = specPriority attributeNames otherNames b.attributeName
        ∧ a.name ≤ b.name)

/-- Variant of `getFilteredRefinementsFrom` following the spec wording of
section 4.1: identical pipeline, but the comparator receives the
deduplicated first-seen tail rather than the tail with duplicates actually
built by the source.  Used to state the refinement-equivalence claim. -/
def getFilteredRefinementsDedup (refinements : List Refinement) (attributeNames : List String) (onlyListedAttributes : Bool) : List Refinement :=
  let otherAttributeNames := dedupFirstSeen (otherAttributeNamesOf attributeNames refinements)
  let sorted := insertionSort
    (fun a b => decide (compareRefinements attributeNames otherAttributeNames a b ≤ 0)) refinements
  let filtered :=
    if onlyListedAttributes = true ∧ attributeNames ≠ [] then
      sorted.filter (fun r => decide (jsIndexOf attributeNames r.attributeName ≠ -1))
    else sorted
  filtered.map computeLabel

/-- An untyped JavaScript value, for reasoning about records whose
`operator` field holds a non-string value. -/
inductive JSVal where
  | str : String → JSVal
  | num : Int → JSVal
  | boolean : Bool → JSVal
  | null : JSVal
deriving DecidableEq

/-- A record as the labeler sees it at the JavaScript level: the `operator`
field may hold a value of any type (`none` models an absent field). -/
structure RefinementJS where
  name : String
  operator : Option JSVal := none
  computedLabel : Option String := none
deriving DecidableEq

/-- Lines 283-295 of the source at the JavaScript level: the guard
`value.hasOwnProperty("operator") && typeof value.operator === "string"`
takes the formatting branch only when the field is present and holds a
string. -/
def computeLabelJS (value : RefinementJS) : RefinementJS :=
  let labeled := { value with computedLabel := some value.name }
  match value.operator with
  | some (JSVal.str op) =>
    let displayedOperator := op
    let displayedOperator := if op = ">=" then "≥" else displayedOperator
    let displayedOperator := if op = "<=" then "≤" else displayedOperator
    { labeled with computedLabel := some (displayedOperator ++ " " ++ value.name) }
  | _ => labeled

/-! Helper lemmas about the labeler. -/

@[simp] theorem computeLabel_type (v : Refinement) : (computeLabel v).type = v.type := by
  cases hop : v.operator <;> simp [computeLabel, hop]

@[simp] theorem computeLabel_attributeName (v : Refinement) :
    (computeLabel v).attributeName = v.attributeName := by
  cases hop : v.operator <;> simp [computeLabel, hop]

@[simp] theorem computeLabel_name (v : Refinement) : (computeLabel v).name = v.name := by
  cases hop : v.operator <;> simp [computeLabel, hop]

@[simp] theorem computeLabel_operator (v : Refinement) :
    (computeLabel v).operator = v.operator := by
  cases hop : v.operator <;> simp [computeLabel, hop]

@[simp] theorem computeLabel_numericValue (v : Refinement) :
    (computeLabel v).numericValue = v.numericValue := by
  cases hop : v.operator <;> simp [computeLabel, hop]

/-- C5: the labeler maps a record with no operator to its bare name, the
operator ">=" to the prefix "≥ ", the operator "<=" to the prefix "≤ ", any
other operator string to that string, a space and the name; and the
computed label is a function only of the name and operator fields. -/
theorem computeLabel_spec (v : Refinement) :
    (v.operator = none → (computeLabel v).computedLabel = some v.name)
    ∧ (v.operator = some ">=" → (computeLabel v).computedLabel = some ("≥ " ++ v.name))
    ∧ (v.operator = some "<=" → (computeLabel v).computedLabel = some ("≤ " ++ v.name))
    ∧ (∀ op, v.operator = some op → op ≠ ">=" → op ≠ "<=" →
        (computeLabel v).computedLabel = some (op ++ " " ++ v.name))
    ∧ (∀ w : Refinement, v.name = w.name → v.operator = w.operator →
        (computeLabel v).computedLabel = (computeLabel w).computedLabel) := by
  refine ⟨fun h => ?_, fun h => ?_, fun h => ?_, fun op h h1 h2 => ?_, fun w h1 h2 => ?_⟩
  · simp [computeLabel, h]
  · simp [computeLabel, h]
  · simp [computeLabel, h]
  · simp [computeLabel, h, h1, h2]
  · cases hop : v.operator <;> rw [hop] at h2 <;>
      simp [computeLabel, hop, h2.symm, h1]

/-- Witness for C5 at concrete records. -/
theorem computeLabel_spec_witness :
    (computeLabel { type := "numeric", attributeName := "price", name := "10",
                    operator := some ">=", numericValue := some 10 }).computedLabel
      = some "≥ 10" := by
  have h := (computeLabel_spec { type := "numeric", attributeName := "price", name := "10",
                                 operator := some ">=", numericValue := some 10 }).2.1 rfl
  simpa using h

/-- C10: at the JavaScript level, a record whose operator field holds a
non-string value is labeled with its bare name, exactly as if the field
were absent. -/
theorem computeLabelJS_nonstring (v : RefinementJS) (j : JSVal) (hj : v.operator = some j)
    (hns : ∀ s, j ≠ JSVal.str s) : (computeLabelJS v).computedLabel = some v.name := by
  cases j with
  | str s => exact absurd rfl (hns s)
  | num n => simp [computeLabelJS, hj]
  | boolean b => simp [computeLabelJS, hj]
  | null => simp [computeLabelJS, hj]

/-- Witness for C10 at a record whose operator field holds the number 3. -/
theorem computeLabelJS_nonstring_witness :
    (computeLabelJS { name := "10", operator := some (JSVal.num 3) }).computedLabel
      = some "10" :=
  computeLabelJS_nonstring { name := "10", operator := some (JSVal.num 3) }
    (JSVal.num 3) rfl (fun s h => by cases h)

/-- C2: the clearing dispatch maps each recognized kind to exactly the
corresponding per-kind state mutator — facet, disjunctive, hierarchical
(clearing every refinement of the attribute), exclude, numeric (removing
the specific operator/value pair) and tag (ignoring the attribute name). -/
theorem clearRefinementFromState_dispatch (S : SearchState) (R : Refinement) :
    (R.type = "facet" →
      clearRefinementFromState S R = Except.ok (S.removeFacetRefinement R.attributeName R.name))
    ∧ (R.type = "disjunctive" →
      clearRefinementFromState S R
        = Except.ok (S.removeDisjunctiveFacetRefinement R.attributeName R.name))
    ∧ (R.type = "hierarchical" →
      clearRefinementFromState S R = Except.ok (S.clearRefinements R.attributeName))
    ∧ (R.type = "exclude" →
      clearRefinementFromState S R = Except.ok (S.removeExcludeRefinement R.attributeName R.name))
    ∧ (R.type = "numeric" →
      clearRefinementFromState S R
        = Except.ok (S.removeNumericRefinement R.attributeName R.operator R.numericValue))
    ∧ (R.type = "tag" →
      clearRefinementFromState S R = Except.ok (S.removeTagRefinement R.name)) := by
  refine ⟨fun h => ?_, fun h => ?_, fun h => ?_, fun h => ?_, fun h => ?_, fun h => ?_⟩ <;>
    simp [clearRefinementFromState, h]

/-- Witness for C2 on a concrete state and facet record. -/
theorem clearRefinementFromState_dispatch_witness :
    clearRefinementFromState { facets := [("color", "red")] }
        { type := "facet", attributeName := "color", name := "red" }
      = Except.ok (SearchState.removeFacetRefinement { facets := [("color", "red")] }
          "color" "red") :=
  (clearRefinementFromState_dispatch { facets := [("color", "red")] }
    { type := "facet", attributeName := "color", name := "red" }).1 rfl

/-- C3: the clearing dispatch raises an error exactly on the unrecognized
kinds — any type outside the six recognized ones yields the error of the
default branch and no new state, and each of the six recognized types
yields a new state. -/
theorem clearRefinementFromState_error (S : SearchState) (R : Refinement) :
    (R.type ∉ (["facet", "disjunctive", "hierarchical", "exclude", "numeric", "tag"] : List String) →
      clearRefinementFromState S R
        = Except.error ("clearRefinement: type " ++ R.type ++ " is not handled"))
    ∧ (R.type ∈ (["facet", "disjunctive", "hierarchical", "exclude", "numeric", "tag"] : List String) →
      ∃ S2, clearRefinementFromState S R = Except.ok S2) := by
  constructor
  · intro h
    unfold clearRefinementFromState
    split
    · exact absurd (by simp [*]) h
    · exact absurd (by simp [*]) h
    · exact absurd (by simp [*]) h
    · exact absurd (by simp [*]) h
    · exact absurd (by simp [*]) h
    · exact absurd (by simp [*]) h
    · rfl
  · intro h
    simp only [List.mem_cons, List.not_mem_nil, or_false] at h
    rcases h with h | h | h | h | h | h
    · exact ⟨S.removeFacetRefinement R.attributeName R.name,
        by simp [clearRefinementFromState, h]⟩
    · exact ⟨S.removeDisjunctiveFacetRefinement R.attributeName R.name,
        by simp [clearRefinementFromState, h]⟩
    · exact ⟨S.clearRefinements R.attributeName, by simp [clearRefinementFromState, h]⟩
    · exact ⟨S.removeExcludeRefinement R.attributeName R.name,
        by simp [clearRefinementFromState, h]⟩
    · exact ⟨S.removeNumericRefinement R.attributeName R.operator R.numericValue,
        by simp [clearRefinementFromState, h]⟩
    · exact ⟨S.removeTagRefinement R.name, by simp [clearRefinementFromState, h]⟩

/-- Witness for C3 at an unrecognized type and at a recognized one. -/
theorem clearRefinementFromState_error_witness :
    clearRefinementFromState { tags := ["sale"] }
        { type := "bogus", attributeName := "color", name := "red" }
      = Except.error ("clearRefinement: type " ++ "bogus" ++ " is not handled")
    ∧ ∃ S2, clearRefinementFromState { tags := ["sale"] }
        { type := "tag", attributeName := "", name := "sale" } = Except.ok S2 :=
  ⟨(clearRefinementFromState_error { tags := ["sale"] }
      { type := "bogus", attributeName := "color", name := "red" }).1 (by decide),
   (clearRefinementFromState_error { tags := ["sale"] }
      { type := "tag", attributeName := "", name := "sale" }).2 (by decide)⟩

/-- C8: clearing the same refinement twice yields the same state as
clearing it once — for any record of a recognized kind, the state obtained
by one clear is mapped to itself by a second clear of the same record. -/
theorem clearRefinementFromState_idempotent (S : SearchState) (R : Refinement) (S2 : SearchState)
    (h : clearRefinementFromState S R = Except.ok S2) :
    clearRefinementFromState S2 R = Except.ok S2 := by
  unfold clearRefinementFromState at h ⊢
  split at h
  all_goals simp_all
  · -- facet
    rcases h with rfl
    simp [SearchState.removeFacetRefinement, List.filter_filter]
  · rcases h with rfl
    simp [SearchState.removeDisjunctiveFacetRefinement, List.filter_filter]
  · rcases h with rfl
    simp [SearchState.clearRefinements, List.filter_filter]
  · rcases h with rfl
    simp [SearchState.removeExcludeRefinement, List.filter_filter]
  · rcases h with rfl
    simp [SearchState.removeNumericRefinement, List.filter_filter]
  · rcases h with rfl
    simp [SearchState.removeTagRefinement, List.filter_filter]

/-- Witness for C8 on a concrete state and facet record. -/
theorem clearRefinementFromState_idempotent_witness :
    clearRefinementFromState { facets := ([] : List (String × String)) }
        { type := "facet", attributeName := "color", name := "red" }
      = Except.ok { facets := ([] : List (String × String)) } :=
  clearRefinementFromState_idempotent { facets := [("color", "red")] }
    { type := "facet", attributeName := "color", name := "red" }
    { facets := ([] : List (String × String)) } rfl

/-- C6 (divergence of the source from the required deduplication): two
refinements on the same unlisted attribute push that attribute name twice
into the tail of other attribute names, so the tail is not a set. -/
theorem otherAttributeNamesOf_duplicates :
    otherAttributeNamesOf []
        [{ type := "facet", attributeName := "color", name := "red" },
         { type := "facet", attributeName := "color", name := "blue" }]
      = ["color", "color"]
    ∧ ¬ (otherAttributeNamesOf []
        [{ type := "facet", attributeName := "color", name := "red" },
         { type := "facet", attributeName := "color", name := "blue" }]).Nodup := by
  constructor
  · rfl
  · decide

/-! Helper lemmas about indices, first occurrences and deduplication. -/

theorem idxOf_lt_length (l : List String) (x : String) (h : x ∈ l) : idxOf l x < l.length := by
  induction l with
  | nil => cases h
  | cons y l ih =>
    by_cases hy : y = x
    · simp [idxOf, hy]
    · rcases List.mem_cons.mp h with h1 | h1
      · exact absurd h1.symm hy
      · simpa [idxOf, hy] using Nat.succ_lt_succ (ih h1)

theorem idxOf_inj (l : List String) (x y : String) (hx : x ∈ l) (hy : y ∈ l)
    (h : idxOf l x = idxOf l y) : x = y := by
  induction l with
  | nil => cases hx
  | cons a l ih =>
    by_cases hax : a = x <;> by_cases hay : a = y
    · exact hax.symm.trans hay
    · by_cases hxy : x = y
      · exact hxy
      · simp [idxOf, hax, hay, hxy] at h
    · simp [idxOf, hax, hay] at h
      exact h.symm
    · have hx' : x ∈ l := by
        rcases List.mem_cons.mp hx with h1 | h1
        · exact absurd h1.symm hax
        · exact h1
      have hy' : y ∈ l := by
        rcases List.mem_cons.mp hy with h1 | h1
        · exact absurd h1.symm hay
        · exact h1
      simp only [idxOf, hax, hay, if_false] at h
      exact ih hx' hy' (Nat.succ_injective h)

theorem idxOf_eq_iff (l : List String) (x y : String) (hx : x ∈ l) (hy : y ∈ l) :
    idxOf l x = idxOf l y ↔ x = y :=
  ⟨idxOf_inj l x y hx hy, fun h => by rw [h]⟩

theorem mem_dedupFirstSeen : ∀ (l : List String) (x : String), x ∈ dedupFirstSeen l ↔ x ∈ l := by
  intro l
  induction l using dedupFirstSeen.induct with
  | case1 => intro x; simp [dedupFirstSeen]
  | case2 a xs ih =>
    intro x
    rw [dedupFirstSeen]
    simp only [List.mem_cons, ih, List.mem_filter, decide_eq_true_eq]
    constructor
    · rintro (h | ⟨h, _⟩)
      · exact Or.inl h
      · exact Or.inr h
    · rintro (h | h)
      · exact Or.inl h
      · by_cases hxa : x = a
        · exact Or.inl hxa
        · exact Or.inr ⟨h, hxa⟩

theorem idxOf_filter_lt (p : String → Bool) (l : List String) (x y : String)
    (hpx : p x = true) (hpy : p y = true) (hx : x ∈ l) (hy : y ∈ l)
    (h : idxOf l x < idxOf l y) : idxOf (l.filter p) x < idxOf (l.filter p) y := by
  induction l with
  | nil => cases hx
  | cons a l ih =>
    by_cases hax : a = x
    · subst hax
      have hay : a ≠ y := by
        intro hcontra
        subst hcontra
        simp [idxOf] at h
      simp [List.filter_cons, hpx, idxOf, hay]
    · by_cases hay : a = y
      · subst hay
        simp [idxOf, hax] at h
      · have hx' : x ∈ l := by
          rcases List.mem_cons.mp hx with h1 | h1
          · exact absurd h1.symm hax
          · exact h1
        have hy' : y ∈ l := by
          rcases List.mem_cons.mp hy with h1 | h1
          · exact absurd h1.symm hay
          · exact h1
        have h' : idxOf l x < idxOf l y := by
          simp only [idxOf, hax, hay, if_false] at h
          omega
        have hrec := ih hx' hy' h'
        by_cases hpa : p a
        · simp only [List.filter_cons, hpa, if_true, idxOf, hax, hay, if_false]
          omega
        · simp only [List.filter_cons, hpa, if_false]
          exact hrec

theorem idxOf_dedupFirstSeen_lt : ∀ (l : List String) (x y : String), x ∈ l → y ∈ l →
    idxOf l x < idxOf l y → idxOf (dedupFirstSeen l) x < idxOf (dedupFirstSeen l) y := by
  intro l
  induction l using dedupFirstSeen.induct with
  | case1 => intro x y hx _ _; cases hx
  | case2 a xs ih =>
    intro x y hx hy h
    rw [dedupFirstSeen]
    by_cases hax : a = x
    · subst hax
      have hay : a ≠ y := by
        intro hcontra
        subst hcontra
        simp [idxOf] at h
      simp [idxOf, hay]
    · by_cases hay : a = y
      · subst hay
        simp [idxOf, hax] at h
      · have hx' : x ∈ xs := by
          rcases List.mem_cons.mp hx with h1 | h1
          · exact absurd h1.symm hax
          · exact h1
        have hy' : y ∈ xs := by
          rcases List.mem_cons.mp hy with h1 | h1
          · exact absurd h1.symm hay
          · exact h1
        have h' : idxOf xs x < idxOf xs y := by
          simp only [idxOf, hax, hay, if_false] at h
          omega
        have hxne : x ≠ a := fun hh => hax hh.symm
        have hyne : y ≠ a := fun hh => hay hh.symm
        have hxf : x ∈ xs.filter (fun z => decide (z ≠ a)) := by
          simp [List.mem_filter, hx', hxne]
        have hyf : y ∈ xs.filter (fun z => decide (z ≠ a)) := by
          simp [List.mem_filter, hy', hyne]
        have hf := idxOf_filter_lt (fun z => decide (z ≠ a)) xs x y
          (by simp [hxne]) (by simp [hyne]) hx' hy' h'
        have hrec := ih x y hxf hyf hf
        simp only [idxOf, hax, hay, if_false]
        omega

theorem idxOf_dedupFirstSeen_lt_iff (l : List String) (x y : String) (hx : x ∈ l) (hy : y ∈ l) :
    idxOf (dedupFirstSeen l) x < idxOf (dedupFirstSeen l) y ↔ idxOf l x < idxOf l y := by
  constructor
  · intro h
    rcases Nat.lt_trichotomy (idxOf l x) (idxOf l y) with h1 | h1 | h1
    · exact h1
    · rw [idxOf_inj l x y hx hy h1] at h
      omega
    · have := idxOf_dedupFirstSeen_lt l y x hy hx h1
      omega
  · exact idxOf_dedupFirstSeen_lt l x y hx hy

theorem idxOf_dedupFirstSeen_eq_iff (l : List String) (x y : String) (hx : x ∈ l) (hy : y ∈ l) :
    idxOf (dedupFirstSeen l) x = idxOf (dedupFirstSeen l) y ↔ idxOf l x = idxOf l y := by
  rw [idxOf_eq_iff l x y hx hy,
    idxOf_eq_iff (dedupFirstSeen l) x y ((mem_dedupFirstSeen l x).mpr hx)
      ((mem_dedupFirstSeen l y).mpr hy)]

/-! Helper lemmas about the comparator-driven sort. -/

theorem mem_orderedInsert (le : Refinement → Refinement → Bool) (a x : Refinement) :
    ∀ l : List Refinement, x ∈ orderedInsert le a l ↔ x = a ∨ x ∈ l := by
  intro l
  induction l with
  | nil => simp [orderedInsert]
  | cons b l ih =>
    by_cases hab : le a b = true
    · simp [orderedInsert, hab]
    · rw [orderedInsert, if_neg hab]
      simp only [List.mem_cons, ih]
      tauto

theorem perm_orderedInsert (le : Refinement → Refinement → Bool) (a : Refinement) :
    ∀ l : List Refinement, (orderedInsert le a l).Perm (a :: l) := by
  intro l
  induction l with
  | nil => simp [orderedInsert]
  | cons b l ih =>
    by_cases hab : le a b = true
    · simp [orderedInsert, hab]
    · rw [orderedInsert, if_neg hab]
      exact List.Perm.trans (List.Perm.cons b ih) (List.Perm.swap a b l)

theorem perm_insertionSort (le : Refinement → Refinement → Bool) :
    ∀ l : List Refinement, (insertionSort le l).Perm l := by
  intro l
  induction l with
  | nil => simp [insertionSort]
  | cons a l ih =>
    exact List.Perm.trans (perm_orderedInsert le a (insertionSort le l)) (List.Perm.cons a ih)

theorem mem_insertionSort (le : Refinement → Refinement → Bool) (l : List Refinement)
    (x : Refinement) : x ∈ insertionSort le l ↔ x ∈ l :=
  (perm_insertionSort le l).mem_iff

theorem pairwise_orderedInsert (le : Refinement → Refinement → Bool)
    (htot : ∀ a b, le a b = true ∨ le b a = true)
    (htrans : ∀ a b c, le a b = true → le b c = true → le a c = true)
    (a : Refinement) :
    ∀ l : List Refinement, l.Pairwise (fun x y => le x y = true) →
      (orderedInsert le a l).Pairwise (fun x y => le x y = true) := by
  intro l
  induction l with
  | nil => simp [orderedInsert]
  | cons b l ih =>
    intro hp
    rcases List.pairwise_cons.mp hp with ⟨hb, hl⟩
    by_cases hab : le a b = true
    · rw [orderedInsert, if_pos hab]
      refine List.pairwise_cons.mpr ⟨?_, hp⟩
      intro c hc
      rcases List.mem_cons.mp hc with rfl | hc
      · exact hab
      · exact htrans a b c hab (hb c hc)
    · rw [orderedInsert, if_neg hab]
      refine List.pairwise_cons.mpr ⟨?_, ih hl⟩
      intro c hc
      rcases (mem_orderedInsert le a c l).mp hc with hca | hc
      · rcases htot a b with h | h
        · exact absurd h hab
        · rw [hca]
          exact h
      · exact hb c hc

theorem pairwise_insertionSort (le : Refinement → Refinement → Bool)
    (htot : ∀ a b, le a b = true ∨ le b a = true)
    (htrans : ∀ a b c, le a b = true → le b c = true → le a c = true) :
    ∀ l : List Refinement, (insertionSort le l).Pairwise (fun x y => le x y = true) := by
  intro l
  induction l with
  | nil => simp [insertionSort]
  | cons a l ih => exact pairwise_orderedInsert le htot htrans a (insertionSort le l) ih

theorem orderedInsert_congr (le1 le2 : Refinement → Refinement → Bool) (a : Refinement) :
    ∀ l : List Refinement, (∀ y ∈ l, le1 a y = le2 a y) →
      orderedInsert le1 a l = orderedInsert le2 a l := by
  intro l
  induction l with
  | nil => simp [orderedInsert]
  | cons b l ih =>
    intro h
    have hb : le1 a b = le2 a b := h b (List.mem_cons_self b l)
    by_cases hab : le1 a b = true
    · rw [orderedInsert, if_pos hab, orderedInsert, if_pos (hb ▸ hab)]
    · rw [orderedInsert, if_neg hab, orderedInsert, if_neg (hb ▸ hab)]
      rw [ih (fun y hy => h y (List.mem_cons_of_mem b hy))]

theorem insertionSort_congr (le1 le2 : Refinement → Refinement → Bool) :
    ∀ l : List Refinement, (∀ x ∈ l, ∀ y ∈ l, le1 x y = le2 x y) →
      insertionSort le1 l = insertionSort le2 l := by
  intro l
  induction l with
  | nil => simp [insertionSort]
  | cons a l ih =>
    intro h
    rw [insertionSort, insertionSort,
      ih (fun x hx y hy => h x (List.mem_cons_of_mem a hx) y (List.mem_cons_of_mem a hy))]
    exact orderedInsert_congr le1 le2 a (insertionSort le2 l) (fun y hy =>
      h a (List.mem_cons_self a l) y
        (List.mem_cons_of_mem a ((mem_insertionSort le2 l y).mp hy)))

/-! Helper lemmas about the JavaScript indexOf embedding and the tail of
other attribute names. -/

theorem jsIndexOf_eq_neg_one_iff (l : List String) (x : String) :
    jsIndexOf l x = -1 ↔ x ∉ l := by
  by_cases hx : x ∈ l
  · simp only [jsIndexOf, if_pos hx]
    constructor
    · intro h
      omega
    · intro h
      exact absurd hx h
  · simp [jsIndexOf, hx]

theorem jsIndexOf_of_mem (l : List String) (x : String) (h : x ∈ l) :
    jsIndexOf l x = (idxOf l x : Int) := by
  simp [jsIndexOf, h]

theorem otherAttributeNamesOf_eq (attributeNames : List String) (refinements : List Refinement) :
    otherAttributeNamesOf attributeNames refinements
      = (refinements.filter
          (fun r => decide (jsIndexOf attributeNames r.attributeName = -1))).map
          (fun r => r.attributeName) := by
  have key : ∀ (refs : List Refinement) (acc : List String),
      refs.foldl
        (fun res r =>
          if jsIndexOf attributeNames r.attributeName = -1 ∧
              indexOfBoolInStrings res (decide False) ≠ 0 then
            res ++ [r.attributeName]
          else res) acc
      = acc ++ (refs.filter
          (fun r => decide (jsIndexOf attributeNames r.attributeName = -1))).map
          (fun r => r.attributeName) := by
    intro refs
    induction refs with
    | nil =>
      intro acc
      simp
    | cons r refs ih =>
      intro acc
      by_cases hr : jsIndexOf attributeNames r.attributeName = -1
      · rw [List.foldl_cons, if_pos ⟨hr, by simp [indexOfBoolInStrings]⟩, ih]
        simp [List.filter_cons, hr]
      · rw [List.foldl_cons, if_neg (fun hcon => hr hcon.1), ih]
        simp [List.filter_cons, hr]
  simpa [otherAttributeNamesOf] using key refinements []

theorem mem_otherAttributeNamesOf (attributeNames : List String) (refs : List Refinement)
    (r : Refinement) (hr : r ∈ refs) (h : jsIndexOf attributeNames r.attributeName = -1) :
    r.attributeName ∈ otherAttributeNamesOf attributeNames refs := by
  rw [otherAttributeNamesOf_eq]
  exact List.mem_map.mpr ⟨r, List.mem_filter.mpr ⟨hr, by simp [h]⟩, rfl⟩

theorem attributeName_mem_or (an : List String) (refs : List Refinement) (r : Refinement)
    (hr : r ∈ refs) :
    r.attributeName ∈ an ∨ r.attributeName ∈ otherAttributeNamesOf an refs := by
  by_cases h : r.attributeName ∈ an
  · exact Or.inl h
  · exact Or.inr (mem_otherAttributeNamesOf an refs r hr
      ((jsIndexOf_eq_neg_one_iff an r.attributeName).mpr h))

/-! Helper lemmas about the comparator. -/

theorem getRestrictedIndexForSort_listed (an ot : List String) (x : String) (hx : x ∈ an) :
    getRestrictedIndexForSort an ot x = (idxOf an x : Int) := by
  unfold getRestrictedIndexForSort
  dsimp only
  rw [jsIndexOf_of_mem an x hx, if_pos (by omega : (idxOf an x : Int) ≠ -1)]

theorem getRestrictedIndexForSort_unlisted (an ot : List String) (x : String) (hx : x ∉ an) :
    getRestrictedIndexForSort an ot x = (an.length : Int) + jsIndexOf ot x := by
  unfold getRestrictedIndexForSort
  dsimp only
  rw [(jsIndexOf_eq_neg_one_iff an x).mpr hx]
  simp

theorem compareRefinements_le_iff (an ot : List String) (a b : Refinement) :
    compareRefinements an ot a b ≤ 0 ↔
      (getRestrictedIndexForSort an ot a.attributeName
          < getRestrictedIndexForSort an ot b.attributeName
        ∨ (getRestrictedIndexForSort an ot a.attributeName
              = getRestrictedIndexForSort an ot b.attributeName
            ∧ a.name ≤ b.name)) := by
  unfold compareRefinements
  dsimp only
  split_ifs with h1 h2 h3 h4
  · exact iff_of_true (by omega) (Or.inr ⟨h1, le_of_eq h2⟩)
  · exact iff_of_true (by omega) (Or.inr ⟨h1, le_of_lt h3⟩)
  · refine iff_of_false (by omega) ?_
    rintro (h | ⟨h, hname⟩)
    · omega
    · exact h3 (lt_of_le_of_ne hname h2)
  · exact iff_of_true (by omega) (Or.inl h4)
  · refine iff_of_false (by omega) ?_
    rintro (h | ⟨h, _⟩)
    · exact h4 h
    · exact h1 h

theorem leRef_total (an ot : List String) (a b : Refinement) :
    decide (compareRefinements an ot a b ≤ 0) = true
      ∨ decide (compareRefinements an ot b a ≤ 0) = true := by
  simp only [decide_eq_true_eq, compareRefinements_le_iff]
  rcases lt_trichotomy (getRestrictedIndexForSort an ot a.attributeName)
      (getRestrictedIndexForSort an ot b.attributeName) with h | h | h
  · exact Or.inl (Or.inl h)
  · rcases le_total a.name b.name with hn | hn
    · exact Or.inl (Or.inr ⟨h, hn⟩)
    · exact Or.inr (Or.inr ⟨h.symm, hn⟩)
  · exact Or.inr (Or.inl h)

theorem leRef_trans (an ot : List String) (a b c : Refinement)
    (hab : decide (compareRefinements an ot a b ≤ 0) = true)
    (hbc : decide (compareRefinements an ot b c ≤ 0) = true) :
    decide (compareRefinements an ot a c ≤ 0) = true := by
  simp only [decide_eq_true_eq, compareRefinements_le_iff] at hab hbc ⊢
  rcases hab with hab | ⟨hab, hnab⟩ <;> rcases hbc with hbc | ⟨hbc, hnbc⟩
  · exact Or.inl (by omega)
  · exact Or.inl (by omega)
  · exact Or.inl (by omega)
  · exact Or.inr ⟨by omega, le_trans hnab hnbc⟩

theorem srcIdx_dedup_iff (an ot : List String) (x y : String)
    (hx : x ∈ an ∨ x ∈ ot) (hy : y ∈ an ∨ y ∈ ot) :
    (getRestrictedIndexForSort an ot x < getRestrictedIndexForSort an ot y
      ↔ getRestrictedIndexForSort an (dedupFirstSeen ot) x
          < getRestrictedIndexForSort an (dedupFirstSeen ot) y)
    ∧ (getRestrictedIndexForSort an ot x = getRestrictedIndexForSort an ot y
      ↔ getRestrictedIndexForSort an (dedupFirstSeen ot) x
          = getRestrictedIndexForSort an (dedupFirstSeen ot) y) := by
  by_cases hxa : x ∈ an <;> by_cases hya : y ∈ an
  · rw [getRestrictedIndexForSort_listed an ot x hxa,
      getRestrictedIndexForSort_listed an ot y hya,
      getRestrictedIndexForSort_listed an (dedupFirstSeen ot) x hxa,
      getRestrictedIndexForSort_listed an (dedupFirstSeen ot) y hya]
    exact ⟨Iff.rfl, Iff.rfl⟩
  · have hyot : y ∈ ot := hy.resolve_left hya
    have hyD : y ∈ dedupFirstSeen ot := (mem_dedupFirstSeen ot y).mpr hyot
    rw [getRestrictedIndexForSort_listed an ot x hxa,
      getRestrictedIndexForSort_listed an (dedupFirstSeen ot) x hxa,
      getRestrictedIndexForSort_unlisted an ot y hya,
      getRestrictedIndexForSort_unlisted an (dedupFirstSeen ot) y hya,
      jsIndexOf_of_mem ot y hyot, jsIndexOf_of_mem (dedupFirstSeen ot) y hyD]
    have h1 : (idxOf an x : Int) < an.length := by
      exact_mod_cast idxOf_lt_length an x hxa
    constructor
    · constructor <;> intro <;> omega
    · constructor <;> intro <;> omega
  · have hxot : x ∈ ot := hx.resolve_left hxa
    have hxD : x ∈ dedupFirstSeen ot := (mem_dedupFirstSeen ot x).mpr hxot
    rw [getRestrictedIndexForSort_listed an ot y hya,
      getRestrictedIndexForSort_listed an (dedupFirstSeen ot) y hya,
      getRestrictedIndexForSort_unlisted an ot x hxa,
      getRestrictedIndexForSort_unlisted an (dedupFirstSeen ot) x hxa,
      jsIndexOf_of_mem ot x hxot, jsIndexOf_of_mem (dedupFirstSeen ot) x hxD]
    have h1 : (idxOf an y : Int) < an.length := by
      exact_mod_cast idxOf_lt_length an y hya
    constructor
    · constructor <;> intro <;> omega
    · constructor <;> intro <;> omega
  · have hxot : x ∈ ot := hx.resolve_left hxa
    have hyot : y ∈ ot := hy.resolve_left hya
    have hxD : x ∈ dedupFirstSeen ot := (mem_dedupFirstSeen ot x).mpr hxot
    have hyD : y ∈ dedupFirstSeen ot := (mem_dedupFirstSeen ot y).mpr hyot
    rw [getRestrictedIndexForSort_unlisted an ot x hxa,
      getRestrictedIndexForSort_unlisted an ot y hya,
      getRestrictedIndexForSort_unlisted an (dedupFirstSeen ot) x hxa,
      getRestrictedIndexForSort_unlisted an (dedupFirstSeen ot) y hya,
      jsIndexOf_of_mem ot x hxot, jsIndexOf_of_mem ot y hyot,
      jsIndexOf_of_mem (dedupFirstSeen ot) x hxD, jsIndexOf_of_mem (dedupFirstSeen ot) y hyD]
    have hlt := idxOf_dedupFirstSeen_lt_iff ot x y hxot hyot
    have heq := idxOf_dedupFirstSeen_eq_iff ot x y hxot hyot
    constructor
    · constructor <;> intro h
      · have h1 : idxOf ot x < idxOf ot y := by omega
        have h2 := hlt.mpr h1
        omega
      · have h1 : idxOf (dedupFirstSeen ot) x < idxOf (dedupFirstSeen ot) y := by omega
        have h2 := hlt.mp h1
        omega
    · constructor <;> intro h
      · have h1 : idxOf ot x = idxOf ot y := by omega
        have h2 := heq.mpr h1
        omega
      · have h1 : idxOf (dedupFirstSeen ot) x = idxOf (dedupFirstSeen ot) y := by omega
        have h2 := heq.mp h1
        omega

theorem srcIdx_eq_specPriority (an ot : List String) (x : String)
    (hx : x ∈ an ∨ x ∈ ot) :
    getRestrictedIndexForSort an (dedupFirstSeen ot) x
      = (specPriority an (dedupFirstSeen ot) x : Int) := by
  by_cases hxa : x ∈ an
  · rw [getRestrictedIndexForSort_listed an (dedupFirstSeen ot) x hxa, specPriority, if_pos hxa]
  · have hxot : x ∈ ot := hx.resolve_left hxa
    rw [getRestrictedIndexForSort_unlisted an (dedupFirstSeen ot) x hxa, specPriority,
      if_neg hxa, jsIndexOf_of_mem (dedupFirstSeen ot) x ((mem_dedupFirstSeen ot x).mpr hxot)]
    push_cast
    ring

theorem compareRefinements_dedup (an ot : List String) (a b : Refinement)
    (ha : a.attributeName ∈ an ∨ a.attributeName ∈ ot)
    (hb : b.attributeName ∈ an ∨ b.attributeName ∈ ot) :
    compareRefinements an ot a b = compareRefinements an (dedupFirstSeen ot) a b := by
  obtain ⟨hlt, heq⟩ := srcIdx_dedup_iff an ot a.attributeName b.attributeName ha hb
  unfold compareRefinements
  dsimp only
  by_cases h1 : getRestrictedIndexForSort an ot a.attributeName
      = getRestrictedIndexForSort an ot b.attributeName
  · rw [if_pos h1, if_pos (heq.mp h1)]
  · rw [if_neg h1, if_neg (fun hcon => h1 (heq.mpr hcon))]
    by_cases h2 : getRestrictedIndexForSort an ot a.attributeName
        < getRestrictedIndexForSort an ot b.attributeName
    · rw [if_pos h2, if_pos (hlt.mp h2)]
    · rw [if_neg h2, if_neg (fun hcon => h2 (hlt.mpr hcon))]

/-- C9: the comparator applied with the tail actually built by the source
(which may hold duplicate attribute names) agrees, on every pair of raw
refinements, with the comparator applied with the deduplicated first-seen
tail, because the restricted index only uses the first occurrence of each
name; consequently the whole extraction pipeline returns the same output
under either tail. -/
theorem getFilteredRefinements_dedup_equiv (refs : List Refinement) (an : List String)
    (only : Bool) :
    (∀ a, a ∈ refs → ∀ b, b ∈ refs →
      compareRefinements an (otherAttributeNamesOf an refs) a b
        = compareRefinements an (dedupFirstSeen (otherAttributeNamesOf an refs)) a b)
    ∧ getFilteredRefinementsFrom refs an only = getFilteredRefinementsDedup refs an only := by
  have hcmp : ∀ a, a ∈ refs → ∀ b, b ∈ refs →
      compareRefinements an (otherAttributeNamesOf an refs) a b
        = compareRefinements an (dedupFirstSeen (otherAttributeNamesOf an refs)) a b :=
    fun a ha b hb =>
      compareRefinements_dedup an (otherAttributeNamesOf an refs) a b
        (attributeName_mem_or an refs a ha) (attributeName_mem_or an refs b hb)
  refine ⟨hcmp, ?_⟩
  unfold getFilteredRefinementsFrom getFilteredRefinementsDedup
  dsimp only
  rw [insertionSort_congr
    (fun a b => decide (compareRefinements an (otherAttributeNamesOf an refs) a b ≤ 0))
    (fun a b =>
      decide (compareRefinements an (dedupFirstSeen (otherAttributeNamesOf an refs)) a b ≤ 0))
    refs (fun x hx y hy => by simp only []; rw [hcmp x hx y hy])]

/-- Witness for C9 on a concrete list with a duplicated unlisted attribute. -/
theorem getFilteredRefinements_dedup_equiv_witness :
    compareRefinements []
        (otherAttributeNamesOf []
          [{ type := "facet", attributeName := "color", name := "red" },
           { type := "facet", attributeName := "color", name := "blue" },
           { type := "tag", attributeName := "_tags", name := "sale" }])
        { type := "facet", attributeName := "color", name := "red" }
        { type := "tag", attributeName := "_tags", name := "sale" }
      = compareRefinements []
        (dedupFirstSeen (otherAttributeNamesOf []
          [{ type := "facet", attributeName := "color", name := "red" },
           { type := "facet", attributeName := "color", name := "blue" },
           { type := "tag", attributeName := "_tags", name := "sale" }]))
        { type := "facet", attributeName := "color", name := "red" }
        { type := "tag", attributeName := "_tags", name := "sale" } :=
  (getFilteredRefinements_dedup_equiv
      [{ type := "facet", attributeName := "color", name := "red" },
       { type := "facet", attributeName := "color", name := "blue" },
       { type := "tag", attributeName := "_tags", name := "sale" }] [] false).1
    { type := "facet", attributeName := "color", name := "red" } (by decide)
    { type := "tag", attributeName := "_tags", name := "sale" } (by decide)

theorem firstSeenUnlisted_eq (an : List String) (refs : List Refinement) :
    firstSeenUnlisted an refs = dedupFirstSeen (otherAttributeNamesOf an refs) := by
  unfold firstSeenUnlisted
  rw [otherAttributeNamesOf_eq]
  have hpq : refs.filter (fun r => decide (r.attributeName ∉ an))
      = refs.filter (fun r => decide (jsIndexOf an r.attributeName = -1)) :=
    List.filter_congr (fun r _ => by
      rw [decide_eq_decide]
      exact (jsIndexOf_eq_neg_one_iff an r.attributeName).symm)
  rw [hpq]

theorem le_to_spec (an : List String) (refs : List Refinement) (x y : Refinement)
    (hx : x ∈ refs) (hy : y ∈ refs)
    (h : compareRefinements an (otherAttributeNamesOf an refs) x y ≤ 0) :
    specOrderedKeyLE an (firstSeenUnlisted an refs) x y := by
  rw [firstSeenUnlisted_eq]
  have ha := attributeName_mem_or an refs x hx
  have hb := attributeName_mem_or an refs y hy
  obtain ⟨hlt, heq⟩ := srcIdx_dedup_iff an (otherAttributeNamesOf an refs)
    x.attributeName y.attributeName ha hb
  rw [compareRefinements_le_iff] at h
  have hx' := srcIdx_eq_specPriority an (otherAttributeNamesOf an refs) x.attributeName ha
  have hy' := srcIdx_eq_specPriority an (otherAttributeNamesOf an refs) y.attributeName hb
  unfold specOrderedKeyLE
  rcases h with h | ⟨h, hname⟩
  · left
    have h2 := hlt.mp h
    rw [hx', hy'] at h2
    exact_mod_cast h2
  · right
    refine ⟨?_, hname⟩
    have h2 := heq.mp h
    rw [hx', hy'] at h2
    exact_mod_cast h2

theorem specOrderedKeyLE_computeLabel (an ons : List String) (a b : Refinement) :
    specOrderedKeyLE an ons (computeLabel a) (computeLabel b) ↔ specOrderedKeyLE an ons a b := by
  unfold specOrderedKeyLE
  rw [computeLabel_attributeName, computeLabel_attributeName,
    computeLabel_name, computeLabel_name]

/-- C1: the list returned by the extraction pipeline is sorted by the
ordering key of the spec — every pair of records in output order is related
by: strictly smaller attribute priority (position in the declared list,
with unlisted attributes pushed after all listed ones in first-seen order),
or equal priority and lexicographically ordered names. -/
theorem getFilteredRefinements_sorted (refs : List Refinement) (an : List String)
    (only : Bool) :
    (getFilteredRefinementsFrom refs an only).Pairwise
      (specOrderedKeyLE an (firstSeenUnlisted an refs)) := by
  unfold getFilteredRefinementsFrom
  dsimp only
  have hpair := pairwise_insertionSort
    (fun a b => decide (compareRefinements an (otherAttributeNamesOf an refs) a b ≤ 0))
    (fun a b => leRef_total an (otherAttributeNamesOf an refs) a b)
    (fun a b c => leRef_trans an (otherAttributeNamesOf an refs) a b c) refs
  have hconv := hpair.imp_of_mem (fun {a b} ha hb h =>
    le_to_spec an refs a b
      ((mem_insertionSort (fun a b =>
        decide (compareRefinements an (otherAttributeNamesOf an refs) a b ≤ 0)) refs a).mp ha)
      ((mem_insertionSort (fun a b =>
        decide (compareRefinements an (otherAttributeNamesOf an refs) a b ≤ 0)) refs b).mp hb)
      (by simpa using h))
  split_ifs with hcond
  · exact List.pairwise_map.mpr ((hconv.sublist (List.filter_sublist _)).imp
      (fun h => (specOrderedKeyLE_computeLabel an (firstSeenUnlisted an refs) _ _).mpr h))
  · exact List.pairwise_map.mpr (hconv.imp
      (fun h => (specOrderedKeyLE_computeLabel an (firstSeenUnlisted an refs) _ _).mpr h))

/-- C4: with the flag set and a non-empty declared list, the pipeline keeps
exactly the refinements whose attribute is declared (up to the sorted
order); with an empty declared list the filter is disabled regardless of
the flag and every refinement survives. -/
theorem getFilteredRefinements_filter_spec (refs : List Refinement) (an : List String)
    (only : Bool) :
    (an ≠ [] → (getFilteredRefinementsFrom refs an true).Perm
        ((refs.filter (fun r => decide (r.attributeName ∈ an))).map computeLabel))
    ∧ (getFilteredRefinementsFrom refs [] only).Perm (refs.map computeLabel) := by
  constructor
  · intro hne
    unfold getFilteredRefinementsFrom
    dsimp only
    rw [if_pos ⟨rfl, hne⟩]
    have hperm := perm_insertionSort
      (fun a b => decide (compareRefinements an (otherAttributeNamesOf an refs) a b ≤ 0)) refs
    have h1 := hperm.filter (fun r => decide (jsIndexOf an r.attributeName ≠ -1))
    have h2 : refs.filter (fun r => decide (jsIndexOf an r.attributeName ≠ -1))
        = refs.filter (fun r => decide (r.attributeName ∈ an)) :=
      List.filter_congr (fun r _ => by
        rw [decide_eq_decide]
        rw [not_iff_comm, jsIndexOf_eq_neg_one_iff])
    have h3 := h1.map computeLabel
    rw [h2] at h3
    exact h3
  · unfold getFilteredRefinementsFrom
    dsimp only
    rw [if_neg (fun hcon => hcon.2 rfl)]
    exact (perm_insertionSort
      (fun a b => decide (compareRefinements [] (otherAttributeNamesOf [] refs) a b ≤ 0))
        refs).map computeLabel

/-- Witness for C4 on a concrete refinement list. -/
theorem getFilteredRefinements_filter_spec_witness :
    (getFilteredRefinementsFrom
        [{ type := "facet", attributeName := "color", name := "red" },
         { type := "tag", attributeName := "_tags", name := "sale" }] ["color"] true).Perm
      (([{ type := "facet", attributeName := "color", name := "red" },
         { type := "tag", attributeName := "_tags", name := "sale" }].filter
          (fun r => decide (r.attributeName ∈ (["color"] : List String)))).map computeLabel) :=
  (getFilteredRefinements_filter_spec
      [{ type := "facet", attributeName := "color", name := "red" },
       { type := "tag", attributeName := "_tags", name := "sale" }] ["color"] true).1
    (by decide)

/-! Helper lemmas locating a record inside the modelled getRefinements
output. -/

theorem mem_getFilteredRefinementsFrom (refs : List Refinement) (an : List String)
    (only : Bool) (R : Refinement) (h : R ∈ getFilteredRefinementsFrom refs an only) :
    ∃ r, r ∈ refs ∧ computeLabel r = R := by
  unfold getFilteredRefinementsFrom at h
  dsimp only at h
  split_ifs at h with hcond
  · rcases List.mem_map.mp h with ⟨r, hr, hR⟩
    exact ⟨r, (mem_insertionSort
      (fun a b =>
        decide (compareRefinements an (otherAttributeNamesOf an refs) a b ≤ 0)) refs r).mp
      (List.mem_of_mem_filter hr), hR⟩
  · rcases List.mem_map.mp h with ⟨r, hr, hR⟩
    exact ⟨r, (mem_insertionSort
      (fun a b =>
        decide (compareRefinements an (otherAttributeNamesOf an refs) a b ≤ 0)) refs r).mp
      hr, hR⟩

theorem getRefinements_cases (S : SearchState) (r : Refinement) (hr : r ∈ getRefinements S) :
    (r.type = "facet" ∧ (r.attributeName, r.name) ∈ S.facets)
    ∨ (r.type = "disjunctive" ∧ (r.attributeName, r.name) ∈ S.disjunctive)
    ∨ (r.type = "hierarchical" ∧ (r.attributeName, r.name) ∈ S.hierarchical)
    ∨ (r.type = "exclude" ∧ (r.attributeName, r.name) ∈ S.excludes)
    ∨ (r.type = "numeric" ∧ ∃ t, t ∈ S.numerics ∧ r.attributeName = t.1
        ∧ r.operator = some t.2.1 ∧ r.numericValue = some t.2.2)
    ∨ (r.type = "tag" ∧ r.name ∈ S.tags) := by
  unfold getRefinements at hr
  rcases List.mem_append.mp hr with hr5 | hrT
  · rcases List.mem_append.mp hr5 with hr4 | hrN
    · rcases List.mem_append.mp hr4 with hr3 | hrE
      · rcases List.mem_append.mp hr3 with hr2 | hrH
        · rcases List.mem_append.mp hr2 with hrF | hrD
          · obtain ⟨p, hp, heq⟩ := List.mem_map.mp hrF
            subst heq
            exact Or.inl ⟨rfl, by simpa using hp⟩
          · obtain ⟨p, hp, heq⟩ := List.mem_map.mp hrD
            subst heq
            exact Or.inr (Or.inl ⟨rfl, by simpa using hp⟩)
        · obtain ⟨p, hp, heq⟩ := List.mem_map.mp hrH
          subst heq
          exact Or.inr (Or.inr (Or.inl ⟨rfl, by simpa using hp⟩))
      · obtain ⟨p, hp, heq⟩ := List.mem_map.mp hrE
        subst heq
        exact Or.inr (Or.inr (Or.inr (Or.inl ⟨rfl, by simpa using hp⟩)))
    · obtain ⟨t, htm, heq⟩ := List.mem_map.mp hrN
      subst heq
      exact Or.inr (Or.inr (Or.inr (Or.inr (Or.inl ⟨rfl, t, htm, rfl, rfl, rfl⟩))))
  · obtain ⟨t, htm, heq⟩ := List.mem_map.mp hrT
    subst heq
    exact Or.inr (Or.inr (Or.inr (Or.inr (Or.inr ⟨rfl, htm⟩))))

/-- C7: clearing a refinement that the extraction pipeline reported, then
extracting again from the cleared state, never re-surfaces the cleared
record. -/
theorem extract_clearOne_no_resurface (S : SearchState) (an : List String) (only : Bool)
    (R : Refinement) (S2 : SearchState)
    (hR : R ∈ getFilteredRefinements S an only)
    (hclr : clearRefinementFromState S R = Except.ok S2) :
    R ∉ getFilteredRefinements S2 an only := by
  intro hmem
  obtain ⟨r2, hr2, hlab⟩ := mem_getFilteredRefinementsFrom (getRefinements S2) an only R hmem
  have htype : r2.type = R.type := by
    rw [← hlab]
    exact (computeLabel_type r2).symm
  have hattr : r2.attributeName = R.attributeName := by
    rw [← hlab]
    exact (computeLabel_attributeName r2).symm
  have hname : r2.name = R.name := by
    rw [← hlab]
    exact (computeLabel_name r2).symm
  have hop : r2.operator = R.operator := by
    rw [← hlab]
    exact (computeLabel_operator r2).symm
  have hnv : r2.numericValue = R.numericValue := by
    rw [← hlab]
    exact (computeLabel_numericValue r2).symm
  unfold clearRefinementFromState at hclr
  split at hclr
  · rename_i heq
    rw [Except.ok.injEq] at hclr
    subst hclr
    rcases getRefinements_cases _ r2 hr2 with ⟨ht2, hmem2⟩ | ⟨ht2, hmem2⟩ | ⟨ht2, hmem2⟩
      | ⟨ht2, hmem2⟩ | ⟨ht2, hmem2⟩ | ⟨ht2, hmem2⟩
    · unfold SearchState.removeFacetRefinement at hmem2
      have hp := List.of_mem_filter hmem2
      simp only [decide_eq_true_eq] at hp
      exact hp ⟨hattr, hname⟩
    · rw [ht2, heq] at htype
      simp at htype
    · rw [ht2, heq] at htype
      simp at htype
    · rw [ht2, heq] at htype
      simp at htype
    · rw [ht2, heq] at htype
      simp at htype
    · rw [ht2, heq] at htype
      simp at htype
  · rename_i heq
    rw [Except.ok.injEq] at hclr
    subst hclr
    rcases getRefinements_cases _ r2 hr2 with ⟨ht2, hmem2⟩ | ⟨ht2, hmem2⟩ | ⟨ht2, hmem2⟩
      | ⟨ht2, hmem2⟩ | ⟨ht2, hmem2⟩ | ⟨ht2, hmem2⟩
    · rw [ht2, heq] at htype
      simp at htype
    · unfold SearchState.removeDisjunctiveFacetRefinement at hmem2
      have hp := List.of_mem_filter hmem2
      simp only [decide_eq_true_eq] at hp
      exact hp ⟨hattr, hname⟩
    · rw [ht2, heq] at htype
      simp at htype
    · rw [ht2, heq] at htype
      simp at htype
    · rw [ht2, heq] at htype
      simp at htype
    · rw [ht2, heq] at htype
      simp at htype
  · rename_i heq
    rw [Except.ok.injEq] at hclr
    subst hclr
    rcases getRefinements_cases _ r2 hr2 with ⟨ht2, hmem2⟩ | ⟨ht2, hmem2⟩ | ⟨ht2, hmem2⟩
      | ⟨ht2, hmem2⟩ | ⟨ht2, hmem2⟩ | ⟨ht2, hmem2⟩
    · rw [ht2, heq] at htype
      simp at htype
    · rw [ht2, heq] at htype
      simp at htype
    · unfold SearchState.clearRefinements at hmem2
      have hp := List.of_mem_filter hmem2
      simp only [decide_eq_true_eq] at hp
      exact hp hattr
    · rw [ht2, heq] at htype
      simp at htype
    · rw [ht2, heq] at htype
      simp at htype
    · rw [ht2, heq] at htype
      simp at htype
  · rename_i heq
    rw [Except.ok.injEq] at hclr
    subst hclr
    rcases getRefinements_cases _ r2 hr2 with ⟨ht2, hmem2⟩ | ⟨ht2, hmem2⟩ | ⟨ht2, hmem2⟩
      | ⟨ht2, hmem2⟩ | ⟨ht2, hmem2⟩ | ⟨ht2, hmem2⟩
    · rw [ht2, heq] at htype
      simp at htype
    · rw [ht2, heq] at htype
      simp at htype
    · rw [ht2, heq] at htype
      simp at htype
    · unfold SearchState.removeExcludeRefinement at hmem2
      have hp := List.of_mem_filter hmem2
      simp only [decide_eq_true_eq] at hp
      exact hp ⟨hattr, hname⟩
    · rw [ht2, heq] at htype
      simp at htype
    · rw [ht2, heq] at htype
      simp at htype
  · rename_i heq
    rw [Except.ok.injEq] at hclr
    subst hclr
    rcases getRefinements_cases _ r2 hr2 with ⟨ht2, hmem2⟩ | ⟨ht2, hmem2⟩ | ⟨ht2, hmem2⟩
      | ⟨ht2, hmem2⟩ | ⟨ht2, hmem2⟩ | ⟨ht2, hmem2⟩
    · rw [ht2, heq] at htype
      simp at htype
    · rw [ht2, heq] at htype
      simp at htype
    · rw [ht2, heq] at htype
      simp at htype
    · rw [ht2, heq] at htype
      simp at htype
    · obtain ⟨t, htmem, h1, h2, h3⟩ := hmem2
      unfold SearchState.removeNumericRefinement at htmem
      have hp := List.of_mem_filter htmem
      simp only [decide_eq_true_eq] at hp
      refine hp ⟨?_, ?_, ?_⟩
      · rw [← h1]
        exact hattr
      · rw [← h2]
        exact hop
      · rw [← h3]
        exact hnv
    · rw [ht2, heq] at htype
      simp at htype
  · rename_i heq
    rw [Except.ok.injEq] at hclr
    subst hclr
    rcases getRefinements_cases _ r2 hr2 with ⟨ht2, hmem2⟩ | ⟨ht2, hmem2⟩ | ⟨ht2, hmem2⟩
      | ⟨ht2, hmem2⟩ | ⟨ht2, hmem2⟩ | ⟨ht2, hmem2⟩
    · rw [ht2, heq] at htype
      simp at htype
    · rw [ht2, heq] at htype
      simp at htype
    · rw [ht2, heq] at htype
      simp at htype
    · rw [ht2, heq] at htype
      simp at htype
    · rw [ht2, heq] at htype
      simp at htype
    · unfold SearchState.removeTagRefinement at hmem2
      have hp := List.of_mem_filter hmem2
      simp only [decide_eq_true_eq] at hp
      exact hp hname
  · simp at hclr

/-- Witness for C7 on a concrete one-facet state. -/
theorem extract_clearOne_no_resurface_witness :
    ({ type := "facet", attributeName := "color", name := "red",
       computedLabel := some "red" } : Refinement) ∉
      getFilteredRefinements { facets := ([] : List (String × String)) } [] false :=
  extract_clearOne_no_resurface { facets := [("color", "red")] } [] false
    { type := "facet", attributeName := "color", name := "red", computedLabel := some "red" }
    { facets := ([] : List (String × String)) } (by decide) rfl
